import Mathlib

set_option maxHeartbeats 1000000
set_option maxRecDepth 8192

/-!
Verification development for the excel-to-json brand-metrics pipeline
(`src/excel_to_json_converter.py`).  The pure core of the script is embedded
shallowly: pandas cells become `PyVal`, Python dicts become insertion-ordered
association lists, floats become `ℚ`, and file reading is abstracted into
`Option` sources (`none` = absent/unreadable).  Each definition mirrors the
corresponding Python function.
-/

/-- Python strings are modelled as lists of characters. -/
abbrev Str := List Char

/-- A pandas cell value: a string, a (coerced) number, or a missing value
(NaN / None). -/
inductive PyVal where
  | str (s : Str)
  | num (q : ℚ)
  | none
deriving DecidableEq

/-- ASCII uppercase-to-lowercase table; models Python `str.lower` on the
alphabet this pipeline manipulates. -/
def upperTable : List (Char × Char) :=
  [('A', 'a'), ('B', 'b'), ('C', 'c'), ('D', 'd'), ('E', 'e'), ('F', 'f'),
   ('G', 'g'), ('H', 'h'), ('I', 'i'), ('J', 'j'), ('K', 'k'), ('L', 'l'),
   ('M', 'm'), ('N', 'n'), ('O', 'o'), ('P', 'p'), ('Q', 'q'), ('R', 'r'),
   ('S', 's'), ('T', 't'), ('U', 'u'), ('V', 'v'), ('W', 'w'), ('X', 'x'),
   ('Y', 'y'), ('Z', 'z')]

/-- Lowercase one character (model of `str.lower`, per character). -/
def pyLower (c : Char) : Char :=
  match upperTable.find? (fun p => p.1 == c) with
  | some p => p.2
  | none => c

/-- Is the character an (ASCII) uppercase letter? -/
def isUpperCh (c : Char) : Bool := upperTable.any (fun p => p.1 == c)

/-- Characters matched by the regex class `\s` (ASCII whitespace). -/
def isSpaceCh (c : Char) : Bool :=
  c == ' ' || c == '\t' || c == '\n' || c == '\r' || c == '\x0b' || c == '\x0c'

/-- Characters removed by `re.sub(r"[\s\-\.,]+", "", name)` in
`normalize_name`: whitespace, hyphen, period, comma. -/
def removable (c : Char) : Bool :=
  isSpaceCh c || c == '-' || c == '.' || c == ','

/-- The lowercasing and punctuation/whitespace removal phase of
`normalize_name` (lines 49-51 of the source; the `.strip()` there is
subsumed by removing all whitespace). -/
def cleanup (s : Str) : Str := (s.map pyLower).filter (fun c => !removable c)

/-- The fixed ordered list of legal-entity suffixes (source lines 53-55). -/
def suffixes : List Str :=
  ["llc".data, "inc".data, "incorporated".data, "corp".data,
   "corporation".data, "company".data, "co".data, "dba".data,
   "limited".data, "ltd".data, "pllc".data, "plc".data, "group".data,
   "holdings".data, "farms".data, "farm".data]

/-- One iteration of the suffix loop: `if name.endswith(suf): name = name[:-len(suf)]`. -/
def strip1 (s suf : Str) : Str :=
  if suf <:+ s then s.take (s.length - suf.length) else s

/-- The whole suffix loop of `normalize_name` (source lines 56-58): every
suffix in the list is tried once, in order, with no break. -/
def stripSuffixPass (s : Str) : Str := suffixes.foldl strip1 s

/-- `if name.endswith("s"): name = name[:-1]` (source lines 60-61). -/
def stripTrailingS (s : Str) : Str := strip1 s ['s']

/-- `normalize_name` (source lines 40-62): non-strings map to the empty
string; strings are lowercased, cleaned, suffix-stripped and s-stripped. -/
def normalize_name (v : PyVal) : Str :=
  match v with
  | .str s => stripTrailingS (stripSuffixPass (cleanup s))
  | _ => []

/-- The suffix phase as claim C1 reads it: only the first suffix of the list
that matches is stripped, and the loop then stops.  (Written from the claim
wording, to be compared against the source's `stripSuffixPass`.) -/
def stripFirstOnly (s : Str) : Str :=
  match suffixes.find? (fun suf => decide (suf <:+ s)) with
  | some suf => s.take (s.length - suf.length)
  | none => s

/-- `normalize_name` as claim C1 describes it: identical to the source except
that the suffix phase stops after the first matching suffix. -/
def normalize_name_claimC1 (v : PyVal) : Str :=
  match v with
  | .str s => stripTrailingS (stripFirstOnly (cleanup s))
  | _ => []

/-- Key list of an insertion-ordered dictionary. -/
def keysOf {A : Type} (m : List (Str × A)) : List Str := m.map Prod.fst

/-- Python `dict.get(k, d)`. -/
def lookupD {A : Type} (m : List (Str × A)) (k : Str) (d : A) : A :=
  match m with
  | [] => d
  | (k2, v) :: rest => if k2 = k then v else lookupD rest k d

/-- Python `m[k] = f(m.get(k, d))`: update in place if the key is present,
otherwise append at the end (dicts preserve insertion order). -/
def adjust {A : Type} (k : Str) (d : A) (f : A → A) :
    List (Str × A) → List (Str × A)
  | [] => [(k, f d)]
  | (k2, v) :: rest =>
    if k2 = k then (k2, f v) :: rest else (k2, v) :: adjust k d f rest

/-- Python `str(value)` on a pandas cell: strings unchanged, numbers
rendered, NaN rendered as the (non-blank) text "nan". -/
def pyStr (v : PyVal) : Str :=
  match v with
  | .str s => s
  | .num q => (toString q).data
  | .none => "nan".data

/-- Python `str.strip()`: remove leading and trailing whitespace. -/
def pyStrip (s : Str) : Str :=
  ((s.dropWhile (fun c => isSpaceCh c)).reverse.dropWhile
    (fun c => isSpaceCh c)).reverse

/-- A parsed tabular source for the vendor-mapping loader: column labels and
rows, a row being a lookup from column label to cell value. -/
structure MapTable where
  cols : List Str
  rows : List (Str → PyVal)

/-- The column-discovery loop of `load_vendor_mapping` (source lines 81-86):
the first column whose lowercased label contains the needle as a substring. -/
def findCol (needle : Str) (cols : List Str) : Option Str :=
  cols.find? (fun c => decide (needle <:+: c.map pyLower))

def vendorNeedle : Str := "vendor".data

def brandNeedle : Str := "brand".data

/-- One row of the mapping loop (source lines 89-94): trim both cells, skip
blank ones, otherwise store `normalize_name vendor ↦ brand`. -/
def mapRowStep (vc bc : Str) (m : List (Str × Str)) (row : Str → PyVal) :
    List (Str × Str) :=
  let vendor := pyStrip (pyStr (row vc))
  let brand := pyStrip (pyStr (row bc))
  if vendor ≠ [] ∧ brand ≠ [] then
    adjust (normalize_name (.str vendor)) brand (fun _ => brand) m
  else m

/-- The row loop of `load_vendor_mapping`. -/
def buildMapping (vc bc : Str) (rows : List (Str → PyVal)) :
    List (Str × Str) :=
  rows.foldl (mapRowStep vc bc) []

/-- `load_vendor_mapping` (source lines 65-97).  `Option.none` models an
absent or unreadable CSV (the `os.path.exists` guard and the
`except: pass`); missing vendor/brand columns yield the empty map. -/
def load_vendor_mapping (src : Option MapTable) : List (Str × Str) :=
  match src with
  | Option.none => []
  | Option.some t =>
    match findCol vendorNeedle t.cols, findCol brandNeedle t.cols with
    | Option.some vc, Option.some bc => buildMapping vc bc t.rows
    | _, _ => []

/-- A sales row after column resolution and numeric coercion: `qty` and
`revenue` are `none` when `pd.to_numeric(..., errors='coerce')` produced NaN
or the column was missing. -/
structure SRow where
  brand : PyVal
  qty : Option ℚ
  revenue : Option ℚ
  category : PyVal

/-- The three co-indexed sales dictionaries built by `load_sales`. -/
structure SalesAcc where
  revenue : List (Str × ℚ)
  units : List (Str × ℚ)
  catrev : List (Str × List (Str × ℚ))
deriving DecidableEq

/-- The body of the row loop of `load_sales` (source lines 166-177). -/
def processRow (mapping : List (Str × Str)) (acc : SalesAcc) (r : SRow) :
    SalesAcc :=
  match r.brand, r.qty, r.revenue with
  | .str b, Option.some q, Option.some rev =>
    let canon := lookupD mapping (normalize_name (.str b)) b
    { revenue := adjust canon 0 (fun x => x + rev) acc.revenue
      units := adjust canon 0 (fun x => x + q) acc.units
      catrev :=
        match r.category with
        | .str c =>
          adjust canon [] (fun d => adjust c 0 (fun x => x + rev) d) acc.catrev
        | _ => acc.catrev }
  | _, _, _ => acc

/-- The empty sales aggregate. -/
def emptySales : SalesAcc := ⟨[], [], []⟩

/-- `load_sales` (source lines 139-180): sources are processed in order into
shared dictionaries; an absent or unreadable source (`Option.none`, from the
`os.path.exists` guard and `except: continue`) contributes nothing. -/
def load_sales (sources : List (Option (List SRow)))
    (mapping : List (Str × Str)) : SalesAcc :=
  sources.foldl
    (fun acc src => (src.getD []).foldl (processRow mapping) acc) emptySales

/-- All rows of the readable sources, in order. -/
def validRows (sources : List (Option (List SRow))) : List SRow :=
  (sources.map (fun src => src.getD [])).flatten

/-- One published brand record (source lines 227-236); `revenue_share` is
injected later by `build_json` and therefore kept outside this structure. -/
structure BrandMetric where
  brand : Str
  revenue : ℚ
  units : ℚ
  avg_unit_cost : Option ℚ
  ppi_index : ℚ
  sell_through_pct : ℚ
  category_mix : List (Str × ℚ)
  history : List ℚ
deriving DecidableEq

/-- `overall_avg_cost` (source lines 192-197): the unweighted mean of the
per-brand average costs of the brands with positive inventory quantity;
`none` when no brand has one. -/
def overallAvgCost (inv : List (Str × (ℚ × ℚ))) : Option ℚ :=
  let costs := (inv.filter (fun p => decide (0 < p.2.2))).map
    (fun p => p.2.1 / p.2.2)
  if costs = [] then Option.none else Option.some (costs.sum / (costs.length : ℚ))

/-- `avg_unit_cost` of one brand (source lines 204-207): defined only when
the brand's accumulated inventory quantity is positive. -/
def avgCostAt (inv : List (Str × (ℚ × ℚ))) (b : Str) : Option ℚ :=
  if 0 < (lookupD inv b (0, 0)).2 then
    Option.some ((lookupD inv b (0, 0)).1 / (lookupD inv b (0, 0)).2)
  else Option.none

/-- `ppi_index` of one brand (source lines 208-213): the 0.0 fallback covers
a missing per-brand average, a missing overall average, and a non-positive
overall average. -/
def ppiAt (inv : List (Str × (ℚ × ℚ))) (b : Str) : ℚ :=
  match avgCostAt inv b, overallAvgCost inv with
  | Option.some a, Option.some o => if 0 < o then a / o * 100 else 0
  | _, _ => 0

/-- `sell_through` (source lines 214-219): sold / (sold + received) when the
denominator is positive, else 0. -/
def sellThroughAt (sold recv : ℚ) : ℚ :=
  if 0 < recv + sold then sold / (sold + recv) else 0

/-- `category_mix` (source lines 221-226): fractions of the brand's category
revenue total, or the empty map when the total is not positive. -/
def catMixAt (crev : List (Str × ℚ)) : List (Str × ℚ) :=
  if 0 < (crev.map Prod.snd).sum then
    crev.map (fun q => (q.1, q.2 / (crev.map Prod.snd).sum))
  else []

/-- The body of the per-brand loop of `compute_metrics`
(source lines 200-236). -/
def metricAt (inv : List (Str × (ℚ × ℚ))) (rev units : List (Str × ℚ))
    (cat : List (Str × List (Str × ℚ))) (b : Str) : BrandMetric :=
  ⟨b, lookupD rev b 0, lookupD units b 0, avgCostAt inv b, ppiAt inv b,
   sellThroughAt (lookupD units b 0) (lookupD inv b (0, 0)).2,
   catMixAt (lookupD cat b []), []⟩

/-- `compute_metrics` (source lines 183-237): one record for every brand in
the union of the key sets of the three aggregates, and nothing else. -/
def compute_metrics (inv : List (Str × (ℚ × ℚ))) (rev units : List (Str × ℚ))
    (cat : List (Str × List (Str × ℚ))) : Str → Option BrandMetric :=
  fun b =>
    if b ∈ keysOf rev ∨ b ∈ keysOf units ∨ b ∈ keysOf inv then
      Option.some (metricAt inv rev units cat b)
    else Option.none

/-- The output document (source lines 260-273); the `as_of` wall-clock
timestamp is supplied by the caller. -/
structure OutputDoc where
  title : Str
  as_of : Str
  currency : Str
  geography : Str
  notes : Str
  total_revenue : ℚ
  total_units : ℚ
  brands : List (BrandMetric × ℚ)

/-- Stable descending insertion by revenue, the behaviour of
`list.sort(key=revenue, reverse=True)`: the inserted element comes from
earlier in the input than everything in the already-sorted list, so it is
placed before the first element whose revenue does not exceed its own —
ties keep input order. -/
def insertDesc (x : BrandMetric × ℚ) :
    List (BrandMetric × ℚ) → List (BrandMetric × ℚ)
  | [] => [x]
  | y :: ys =>
    if y.1.revenue ≤ x.1.revenue then x :: y :: ys else y :: insertDesc x ys

/-- Stable sort by revenue descending. -/
def sortDesc : List (BrandMetric × ℚ) → List (BrandMetric × ℚ)
  | [] => []
  | x :: xs => insertDesc x (sortDesc xs)

/-- `build_json` (source lines 240-274): sum the revenues and units, attach
each brand's revenue share, sort by revenue descending and wrap in the
metadata envelope.  A brand is paired with its injected `revenue_share`. -/
def build_json (brand_data : List BrandMetric)
    (asOf notes geography currency : Str) : OutputDoc :=
  let total := (brand_data.map BrandMetric.revenue).sum
  let totalU := (brand_data.map BrandMetric.units).sum
  let shared := brand_data.map
    (fun b => (b, if 0 < total then b.revenue / total else 0))
  ⟨"Brand PPI + Sell-Through + Revenue CRM".data, asOf, currency, geography,
   notes, total, totalU, sortDesc shared⟩

/-- Invariant tying the three sales dictionaries together (claim C9). -/
def salesKeysAligned (acc : SalesAcc) : Prop :=
  keysOf acc.revenue = keysOf acc.units ∧
    keysOf acc.catrev ⊆ keysOf acc.revenue

/-- Concrete mapping table used to exercise `load_vendor_mapping`. -/
def tblW : MapTable :=
  ⟨["Vendor".data, "Brand".data],
   [fun l =>
      if l = "Vendor".data then PyVal.str "Acme Farm LLC".data
      else if l = "Brand".data then PyVal.str "Acme Industries".data
      else PyVal.none]⟩

/-- Concrete inventory aggregate: brand "a" with cost 10 over quantity 5. -/
def invW : List (Str × (ℚ × ℚ)) := [("a".data, (10, 5))]

/-- Concrete revenue map: brand "b" with revenue 5000. -/
def revW : List (Str × ℚ) := [("b".data, 5000)]

/-- Concrete units map: brand "b" with 50 units sold. -/
def unitsW : List (Str × ℚ) := [("b".data, 50)]

/-- Inventory aggregate for the claim C6 counterexample: 10 units received. -/
def invC6 : List (Str × (ℚ × ℚ)) := [("a".data, (100, 10))]

/-- Units map for the claim C6 counterexample: net -5 units sold (returns
exceeding sales, which the sales aggregator happily accumulates). -/
def unitsC6 : List (Str × ℚ) := [("a".data, -5)]

/-- A concrete brand record with revenue 5. -/
def mW : BrandMetric := ⟨"a".data, 5, 2, Option.none, 0, 0, [], []⟩

/-- A concrete valid sales row. -/
def srowW : SRow :=
  ⟨PyVal.str "Acme".data, Option.some 10, Option.some 100,
   PyVal.str "Flower".data⟩

/-- A concrete source list: one readable source plus one unreadable one. -/
def sourcesW : List (Option (List SRow)) := [Option.some [srowW], Option.none]

theorem strip1_append {s suf : Str} (h : suf <:+ s) : strip1 s suf ++ suf = s := by
  obtain ⟨t, rfl⟩ := h
  have hc : suf <:+ t ++ suf := ⟨t, rfl⟩
  simp only [strip1, if_pos hc, List.length_append]
  rw [Nat.add_sub_cancel, List.take_left]

theorem foldl_strip1_sublist :
    ∀ (l : List Str) (s : Str), ∃ c : List Str, c.Sublist l ∧
      l.foldl strip1 s ++ c.reverse.flatten = s := by
  intro l
  induction l with
  | nil => exact fun s => ⟨[], List.Sublist.refl _, by simp⟩
  | cons suf rest ih =>
    intro s
    rw [List.foldl_cons]
    by_cases h : suf <:+ s
    · obtain ⟨c, hc, he⟩ := ih (strip1 s suf)
      refine ⟨suf :: c, List.Sublist.cons₂ _ hc, ?_⟩
      rw [List.reverse_cons, List.flatten_append, List.flatten_cons,
        List.flatten_nil, List.append_nil, ← List.append_assoc, he]
      exact strip1_append h
    · have h1 : strip1 s suf = s := by
        unfold strip1
        rw [if_neg h]
      rw [h1]
      obtain ⟨c, hc, he⟩ := ih s
      exact ⟨c, List.Sublist.cons _ hc, he⟩

theorem upperTable_snd_fixed :
    ∀ p ∈ upperTable, isUpperCh p.2 = false ∧ pyLower p.2 = p.2 := by decide

theorem pyLower_not_upper (c : Char) : isUpperCh (pyLower c) = false := by
  unfold pyLower
  cases hf : upperTable.find? (fun p => p.1 == c) with
  | none =>
    have h := List.find?_eq_none.mp hf
    unfold isUpperCh
    rw [List.any_eq_false]
    exact fun p hp => h p hp
  | some p => exact (upperTable_snd_fixed p (List.mem_of_find?_eq_some hf)).1

theorem pyLower_fixed_of_not_upper {c : Char} (h : isUpperCh c = false) :
    pyLower c = c := by
  unfold pyLower
  cases hf : upperTable.find? (fun p => p.1 == c) with
  | none => rfl
  | some p =>
    exfalso
    unfold isUpperCh at h
    rw [List.any_eq_false] at h
    have hp : (p.1 == c) = true := by simpa using List.find?_some hf
    exact h p (List.mem_of_find?_eq_some hf) hp

theorem pyLower_idem (c : Char) : pyLower (pyLower c) = pyLower c :=
  pyLower_fixed_of_not_upper (pyLower_not_upper c)

theorem mem_cleanup {s : Str} {c : Char} (h : c ∈ cleanup s) :
    removable c = false ∧ isUpperCh c = false ∧ pyLower c = c := by
  unfold cleanup at h
  have h1 := List.of_mem_filter h
  have h2 := List.mem_of_mem_filter h
  obtain ⟨c0, _, rfl⟩ := List.mem_map.mp h2
  refine ⟨?_, pyLower_not_upper c0, pyLower_idem c0⟩
  simpa using h1

theorem mem_strip1 {s suf : Str} {c : Char} (h : c ∈ strip1 s suf) : c ∈ s := by
  unfold strip1 at h
  split at h
  · exact List.mem_of_mem_take h
  · exact h

theorem mem_foldl_strip1 :
    ∀ (l : List Str) (s : Str) (c : Char), c ∈ l.foldl strip1 s → c ∈ s := by
  intro l
  induction l with
  | nil => exact fun s c h => h
  | cons suf rest ih =>
    intro s c h
    rw [List.foldl_cons] at h
    exact mem_strip1 (ih _ c h)

theorem normalize_name_chars (v : PyVal) (c : Char) (h : c ∈ normalize_name v) :
    removable c = false ∧ isUpperCh c = false ∧ pyLower c = c := by
  cases v with
  | str s =>
    unfold normalize_name stripTrailingS stripSuffixPass at h
    exact mem_cleanup (mem_foldl_strip1 _ _ _ (mem_strip1 h))
  | num q => exact absurd h (List.not_mem_nil c)
  | none => exact absurd h (List.not_mem_nil c)

theorem map_pyLower_fixed {s : Str} (h : ∀ c ∈ s, pyLower c = c) :
    s.map pyLower = s := by
  induction s with
  | nil => rfl
  | cons c cs ih =>
    rw [List.map_cons, h c (List.mem_cons_self c cs),
      ih (fun x hx => h x (List.mem_cons_of_mem c hx))]

theorem cleanup_fixed {s : Str}
    (h : ∀ c ∈ s, removable c = false ∧ pyLower c = c) : cleanup s = s := by
  unfold cleanup
  rw [map_pyLower_fixed (fun c hc => (h c hc).2), List.filter_eq_self.mpr]
  intro a ha
  simp [(h a ha).1]

theorem foldl_strip1_fixed :
    ∀ (l : List Str) (s : Str), (∀ suf ∈ l, ¬ suf <:+ s) →
      l.foldl strip1 s = s := by
  intro l
  induction l with
  | nil => exact fun s _ => rfl
  | cons suf rest ih =>
    intro s h
    rw [List.foldl_cons]
    have h1 : strip1 s suf = s := by
      unfold strip1
      rw [if_neg (h suf (List.mem_cons_self suf rest))]
    rw [h1]
    exact ih s (fun x hx => h x (List.mem_cons_of_mem suf hx))

/-- Claim C1 (counterexample): the source's suffix loop has no break, so
after stripping "corp" it also strips the later-listed "co"; the claim's
first-match-only reading predicts "zco" where the code produces "z". -/
theorem normalize_name_strips_later_suffixes :
    normalize_name (.str "zcocorp".data) = "z".data ∧
      normalize_name_claimC1 (.str "zcocorp".data) = "zco".data ∧
      normalize_name (.str "zcocorp".data) ≠
        normalize_name_claimC1 (.str "zcocorp".data) := by decide

/-- Claim C1 (amended): after lowercasing and removal of whitespace, hyphens,
periods and commas, the suffix list is traversed once in order and each entry
strips at most one occurrence at its turn: the removed trailing block is the
concatenation, in reverse stripping order, of a subsequence of the suffix
list.  After the first matching suffix is stripped, later-listed suffixes can
still be stripped; earlier-listed ones are never revisited. -/
theorem suffix_pass_single_traversal (s : Str) :
    ∃ c : List Str, c.Sublist suffixes ∧
      stripSuffixPass (cleanup s) ++ c.reverse.flatten = cleanup s ∧
      normalize_name (.str s) = stripTrailingS (stripSuffixPass (cleanup s)) := by
  obtain ⟨c, hc, he⟩ := foldl_strip1_sublist suffixes (cleanup s)
  exact ⟨c, hc, he, rfl⟩

/-- Claim C2 (counterexample): `normalize_name` is not idempotent; on
"inccorp" the first pass strips "corp" leaving "inc", and a second pass
strips "inc" down to the empty string. -/
theorem normalize_name_not_idempotent :
    normalize_name (.str (normalize_name (.str "inccorp".data))) ≠
      normalize_name (.str "inccorp".data) := by decide

theorem idem_of_no_trailing_suffix (v : PyVal)
    (h1 : ∀ suf ∈ suffixes, ¬ suf <:+ normalize_name v)
    (h2 : ¬ ['s'] <:+ normalize_name v) :
    normalize_name (.str (normalize_name v)) = normalize_name v := by
  have hchars := fun c hc => normalize_name_chars v c hc
  show stripTrailingS (stripSuffixPass (cleanup (normalize_name v))) = _
  rw [cleanup_fixed (fun c hc => ⟨(hchars c hc).1, (hchars c hc).2.2⟩)]
  unfold stripSuffixPass
  rw [foldl_strip1_fixed _ _ h1]
  unfold stripTrailingS strip1
  rw [if_neg h2]

theorem strip1_length_le (s suf : Str) : (strip1 s suf).length ≤ s.length := by
  unfold strip1
  split
  · exact List.length_take_le' _ _
  · exact le_refl _

theorem foldl_strip1_length_le :
    ∀ (l : List Str) (s : Str), (l.foldl strip1 s).length ≤ s.length
  | [], _ => le_refl _
  | suf :: rest, s =>
    le_trans (foldl_strip1_length_le rest (strip1 s suf)) (strip1_length_le s suf)

theorem strip1_length_lt {s suf : Str} (h : suf <:+ s) (hne : suf ≠ []) :
    (strip1 s suf).length < s.length := by
  have hle := h.length_le
  have hpos : 0 < suf.length := List.length_pos.mpr hne
  unfold strip1
  rw [if_pos h, List.length_take]
  have h1 : min (s.length - suf.length) s.length ≤ s.length - suf.length :=
    Nat.min_le_left _ _
  omega

theorem suffixes_ne_nil : ∀ suf ∈ suffixes, suf ≠ [] := by decide

theorem foldl_strip1_length_lt :
    ∀ (l : List Str) (s : Str), (∀ suf ∈ l, suf ≠ []) →
      (∃ suf ∈ l, suf <:+ s) → (l.foldl strip1 s).length < s.length := by
  intro l
  induction l with
  | nil =>
    rintro s _ ⟨suf, hmem, _⟩
    exact absurd hmem (List.not_mem_nil suf)
  | cons suf rest ih =>
    rintro s hne hex
    rw [List.foldl_cons]
    by_cases hs : suf <:+ s
    · have h1 : (strip1 s suf).length < s.length :=
        strip1_length_lt hs (hne suf (List.mem_cons_self suf rest))
      have h2 : (rest.foldl strip1 (strip1 s suf)).length ≤
          (strip1 s suf).length := foldl_strip1_length_le rest _
      omega
    · obtain ⟨suf2, hmem2, hsuf2⟩ := hex
      have hmem2r : suf2 ∈ rest := by
        rcases List.mem_cons.mp hmem2 with rfl | hm
        · exact absurd hsuf2 hs
        · exact hm
      have hstrip : strip1 s suf = s := by
        unfold strip1
        rw [if_neg hs]
      rw [hstrip]
      exact ih s (fun x hx => hne x (List.mem_cons_of_mem suf hx))
        ⟨suf2, hmem2r, hsuf2⟩

theorem not_idem_of_trailing_suffix (v : PyVal)
    (h : (∃ suf ∈ suffixes, suf <:+ normalize_name v) ∨
      ['s'] <:+ normalize_name v) :
    normalize_name (.str (normalize_name v)) ≠ normalize_name v := by
  have hchars := fun c hc => normalize_name_chars v c hc
  have hclean : cleanup (normalize_name v) = normalize_name v :=
    cleanup_fixed (fun c hc => ⟨(hchars c hc).1, (hchars c hc).2.2⟩)
  have hform : normalize_name (.str (normalize_name v)) =
      stripTrailingS (stripSuffixPass (normalize_name v)) := by
    show stripTrailingS (stripSuffixPass (cleanup (normalize_name v))) = _
    rw [hclean]
  intro heq
  rw [hform] at heq
  have hlt : (stripTrailingS (stripSuffixPass (normalize_name v))).length <
      (normalize_name v).length := by
    by_cases hex : ∃ suf ∈ suffixes, suf <:+ normalize_name v
    · have h1 : (stripSuffixPass (normalize_name v)).length <
          (normalize_name v).length :=
        foldl_strip1_length_lt suffixes _ suffixes_ne_nil hex
      have h2 : (stripTrailingS (stripSuffixPass (normalize_name v))).length ≤
          (stripSuffixPass (normalize_name v)).length :=
        strip1_length_le (stripSuffixPass (normalize_name v)) (['s'])
      omega
    · rcases h with hA | hs
      · exact absurd hA hex
      · push_neg at hex
        have hfix : stripSuffixPass (normalize_name v) = normalize_name v :=
          foldl_strip1_fixed suffixes _ hex
        rw [hfix]
        exact strip1_length_lt hs (by decide)
  rw [heq] at hlt
  exact lt_irrefl _ hlt

/-- Claim C2 (amended): `normalize_name` is idempotent precisely on the
inputs whose normalized form ends neither with one of the listed
legal-entity suffixes nor with the letter s; for every other input a second
application changes (strictly shortens) the string. -/
theorem normalize_name_idem_iff (v : PyVal) :
    normalize_name (.str (normalize_name v)) = normalize_name v ↔
      ((∀ suf ∈ suffixes, ¬ suf <:+ normalize_name v) ∧
        ¬ ['s'] <:+ normalize_name v) := by
  constructor
  · intro heq
    by_contra hcon
    rw [not_and_or] at hcon
    refine not_idem_of_trailing_suffix v ?_ heq
    rcases hcon with hA | hB
    · push_neg at hA
      exact Or.inl hA
    · exact Or.inr (not_not.mp hB)
  · intro hc
    exact idem_of_no_trailing_suffix v hc.1 hc.2

theorem normalize_name_idem_iff_witness :
    ((∀ suf ∈ suffixes, ¬ suf <:+ normalize_name (.str "ab".data)) ∧
      ¬ ['s'] <:+ normalize_name (.str "ab".data)) ∧
      normalize_name (.str (normalize_name (.str "ab".data))) =
        normalize_name (.str "ab".data) :=
  ⟨by decide, (normalize_name_idem_iff (.str "ab".data)).mpr (by decide)⟩

/-- Claim C10: every character of a normalized key survives the lowercasing
map and the removability filter, and suffix stripping only takes prefixes,
so the output contains no whitespace, hyphen, period, comma or uppercase
letter. -/
theorem normalize_output_clean (v : PyVal) (c : Char)
    (h : c ∈ normalize_name v) :
    removable c = false ∧ isUpperCh c = false :=
  ⟨(normalize_name_chars v c h).1, (normalize_name_chars v c h).2.1⟩

theorem normalize_output_clean_witness :
    ('a' ∈ normalize_name (.str "A b".data)) ∧
      removable 'a' = false ∧ isUpperCh 'a' = false :=
  ⟨by decide, normalize_output_clean (.str "A b".data) 'a' (by decide)⟩

theorem keysOf_adjust {A : Type} (k : Str) (d : A) (f : A → A) :
    ∀ m : List (Str × A),
      keysOf (adjust k d f m) =
        if k ∈ keysOf m then keysOf m else keysOf m ++ [k]
  | [] => by
    have hnc : ¬ k ∈ keysOf ([] : List (Str × A)) := List.not_mem_nil k
    rw [if_neg hnc]
    rfl
  | (k2, v) :: rest => by
    by_cases hk : k2 = k
    · subst hk
      have h1 : adjust k2 d f ((k2, v) :: rest) = (k2, f v) :: rest := by
        show (if k2 = k2 then (k2, f v) :: rest else (k2, v) :: adjust k2 d f rest) =
          (k2, f v) :: rest
        rw [if_pos rfl]
      have hc : k2 ∈ keysOf ((k2, v) :: rest) :=
        List.mem_cons_self k2 (keysOf rest)
      rw [h1, if_pos hc]
      rfl
    · have hadj : adjust k d f ((k2, v) :: rest) = (k2, v) :: adjust k d f rest := by
        show (if k2 = k then (k2, f v) :: rest else (k2, v) :: adjust k d f rest) =
          (k2, v) :: adjust k d f rest
        rw [if_neg hk]
      have hne : ¬ k = k2 := fun h => hk h.symm
      have hmemc : (k ∈ keysOf ((k2, v) :: rest)) ↔ k ∈ keysOf rest := by
        show (k ∈ k2 :: keysOf rest) ↔ _
        rw [List.mem_cons]
        exact ⟨fun h => h.resolve_left hne, Or.inr⟩
      have hkeys : keysOf ((k2, v) :: adjust k d f rest) =
          k2 :: keysOf (adjust k d f rest) := rfl
      rw [hadj, hkeys, keysOf_adjust k d f rest]
      by_cases hm : k ∈ keysOf rest
      · rw [if_pos hm, if_pos (hmemc.mpr hm)]
        rfl
      · rw [if_neg hm, if_neg (fun hcon => hm (hmemc.mp hcon))]
        rfl

theorem mem_keysOf_adjust {A : Type} {k b : Str} {d : A} {f : A → A}
    {m : List (Str × A)} :
    b ∈ keysOf (adjust k d f m) ↔ b ∈ keysOf m ∨ b = k := by
  rw [keysOf_adjust]
  by_cases hm : k ∈ keysOf m
  · rw [if_pos hm]
    constructor
    · exact Or.inl
    · rintro (h | rfl)
      · exact h
      · exact hm
  · rw [if_neg hm]
    simp [List.mem_append]

theorem lookupD_eq_default {A : Type} {m : List (Str × A)} {k : Str} (d : A)
    (h : k ∉ keysOf m) : lookupD m k d = d := by
  induction m with
  | nil => rfl
  | cons p rest ih =>
    obtain ⟨k2, v⟩ := p
    have h2 : k ∉ keysOf rest ∧ ¬ k2 = k := by
      constructor
      · exact fun hm => h (List.mem_cons_of_mem _ hm)
      · rintro rfl
        exact h (List.mem_cons_self _ _)
    simp only [lookupD, if_neg h2.2]
    exact ih h2.1

theorem processRow_keys_aligned (mapping : List (Str × Str)) (acc : SalesAcc)
    (r : SRow) (h : salesKeysAligned acc) :
    salesKeysAligned (processRow mapping acc r) := by
  obtain ⟨h1, h2⟩ := h
  obtain ⟨brand, qty, revp, catg⟩ := r
  cases brand with
  | str b =>
    cases qty with
    | none => exact ⟨h1, h2⟩
    | some q =>
      cases revp with
      | none => exact ⟨h1, h2⟩
      | some rev =>
        constructor
        · show keysOf (adjust _ 0 _ acc.revenue) =
            keysOf (adjust _ 0 _ acc.units)
          rw [keysOf_adjust, keysOf_adjust, h1]
        · cases catg with
          | str c =>
            intro x hx
            rcases mem_keysOf_adjust.mp hx with hx | rfl
            · exact mem_keysOf_adjust.mpr (Or.inl (h2 hx))
            · exact mem_keysOf_adjust.mpr (Or.inr rfl)
          | num q2 => exact fun x hx => mem_keysOf_adjust.mpr (Or.inl (h2 hx))
          | none => exact fun x hx => mem_keysOf_adjust.mpr (Or.inl (h2 hx))
  | num q => exact ⟨h1, h2⟩
  | none => exact ⟨h1, h2⟩

theorem foldl_processRow_aligned (mapping : List (Str × Str)) :
    ∀ (rows : List SRow) (acc : SalesAcc), salesKeysAligned acc →
      salesKeysAligned (rows.foldl (processRow mapping) acc)
  | [], _, h => h
  | r :: rs, acc, h =>
    foldl_processRow_aligned mapping rs _ (processRow_keys_aligned mapping acc r h)

theorem foldl_sources_aligned (mapping : List (Str × Str)) :
    ∀ (sources : List (Option (List SRow))) (acc : SalesAcc),
      salesKeysAligned acc →
      salesKeysAligned (sources.foldl
        (fun a src => (src.getD []).foldl (processRow mapping) a) acc)
  | [], _, h => h
  | s :: ss, acc, h =>
    foldl_sources_aligned mapping ss _
      (foldl_processRow_aligned mapping (s.getD []) acc h)

/-- Claim C9: in every aggregate returned by the sales loader the revenue
and units dictionaries have the same key list (a brand records revenue iff
it records units), and every brand with a category-revenue entry also has a
revenue entry. -/
theorem load_sales_key_invariant (sources : List (Option (List SRow)))
    (mapping : List (Str × Str)) :
    keysOf (load_sales sources mapping).revenue =
        keysOf (load_sales sources mapping).units ∧
      keysOf (load_sales sources mapping).catrev ⊆
        keysOf (load_sales sources mapping).revenue :=
  foldl_sources_aligned mapping sources emptySales
    ⟨rfl, fun x hx => absurd hx (List.not_mem_nil x)⟩

theorem load_sales_key_invariant_witness :
    keysOf (load_sales sourcesW []).revenue =
        keysOf (load_sales sourcesW []).units ∧
      ("Acme".data ∈ keysOf (load_sales sourcesW []).catrev ∧
        "Acme".data ∈ keysOf (load_sales sourcesW []).revenue) :=
  ⟨(load_sales_key_invariant sourcesW []).1,
   by decide, (load_sales_key_invariant sourcesW []).2 (by decide)⟩

theorem load_sales_foldl_eq (mapping : List (Str × Str)) :
    ∀ (sources : List (Option (List SRow))) (acc : SalesAcc),
      sources.foldl
          (fun a src => (src.getD []).foldl (processRow mapping) a) acc =
        (validRows sources).foldl (processRow mapping) acc
  | [], _ => rfl
  | s :: ss, acc => by
    show ss.foldl _ ((s.getD []).foldl (processRow mapping) acc) = _
    rw [load_sales_foldl_eq mapping ss]
    show _ = ((s.getD [] ++ validRows ss).foldl (processRow mapping) acc)
    rw [List.foldl_append]

/-- Claim C5: sales aggregation is merge-invariant — processing a list of
sources yields exactly the aggregate obtained from one single source holding
all rows of the readable sources, for every source list and canonical map. -/
theorem load_sales_merge_invariant (sources : List (Option (List SRow)))
    (mapping : List (Str × Str)) :
    load_sales sources mapping =
      load_sales [Option.some (validRows sources)] mapping :=
  load_sales_foldl_eq mapping sources emptySales

theorem metricAt_no_inventory (inv : List (Str × (ℚ × ℚ)))
    (rev units : List (Str × ℚ)) (cat : List (Str × List (Str × ℚ)))
    (b : Str) (hinv : b ∉ keysOf inv) :
    (metricAt inv rev units cat b).avg_unit_cost = Option.none ∧
      (metricAt inv rev units cat b).ppi_index = 0 := by
  have hq : lookupD inv b ((0 : ℚ), (0 : ℚ)) = ((0 : ℚ), (0 : ℚ)) :=
    lookupD_eq_default _ hinv
  have havg : avgCostAt inv b = Option.none := by
    unfold avgCostAt
    rw [hq]
    norm_num
  refine ⟨havg, ?_⟩
  show ppiAt inv b = 0
  unfold ppiAt
  rw [havg]

/-- Claim C3: `compute_metrics` emits a record exactly for the brands in the
union of the key sets of the revenue, units and inventory aggregates; a
brand with no inventory gets an undefined average unit cost and a 0.0 ppi
index (and with revenue 5000 / units 50 a sell-through of exactly 1), while
a brand outside both sales maps gets revenue 0 and units 0. -/
theorem compute_metrics_brand_universe (inv : List (Str × (ℚ × ℚ)))
    (rev units : List (Str × ℚ)) (cat : List (Str × List (Str × ℚ))) :
    (∀ b, (compute_metrics inv rev units cat b).isSome = true ↔
        (b ∈ keysOf rev ∨ b ∈ keysOf units ∨ b ∈ keysOf inv)) ∧
    (∀ b m, compute_metrics inv rev units cat b = Option.some m →
        b ∉ keysOf inv →
        m.avg_unit_cost = Option.none ∧ m.ppi_index = 0 ∧
          (lookupD rev b 0 = 5000 → lookupD units b 0 = 50 →
            m.sell_through_pct = 1)) ∧
    (∀ b m, compute_metrics inv rev units cat b = Option.some m →
        b ∉ keysOf rev → b ∉ keysOf units →
        m.revenue = 0 ∧ m.units = 0) := by
  refine ⟨?_, ?_, ?_⟩
  · intro b
    unfold compute_metrics
    split
    · next h => simp [h]
    · next h => simp [h]
  · intro b m hm hinv
    have hsome : m = metricAt inv rev units cat b := by
      unfold compute_metrics at hm
      split at hm
      · exact (Option.some.inj hm).symm
      · exact Option.noConfusion hm
    subst hsome
    obtain ⟨havg, hppi⟩ := metricAt_no_inventory inv rev units cat b hinv
    refine ⟨havg, hppi, ?_⟩
    intro hrev hunits
    show sellThroughAt (lookupD units b 0) (lookupD inv b ((0 : ℚ), (0 : ℚ))).2 = 1
    rw [hunits, lookupD_eq_default _ hinv]
    norm_num [sellThroughAt]
  · intro b m hm hr hu
    have hsome : m = metricAt inv rev units cat b := by
      unfold compute_metrics at hm
      split at hm
      · exact (Option.some.inj hm).symm
      · exact Option.noConfusion hm
    subst hsome
    exact ⟨lookupD_eq_default _ hr, lookupD_eq_default _ hu⟩

theorem compute_metrics_brand_universe_witness :
    (compute_metrics invW revW unitsW [] ("b".data) =
        Option.some (metricAt invW revW unitsW [] ("b".data))) ∧
      ((metricAt invW revW unitsW [] ("b".data)).avg_unit_cost =
          Option.none ∧
        (metricAt invW revW unitsW [] ("b".data)).ppi_index = 0 ∧
        (metricAt invW revW unitsW [] ("b".data)).sell_through_pct = 1) := by
  refine ⟨rfl, ?_⟩
  have h := (compute_metrics_brand_universe invW revW unitsW []).2.1 ("b".data)
    (metricAt invW revW unitsW [] ("b".data)) rfl (by decide)
  exact ⟨h.1, h.2.1, h.2.2 rfl rfl⟩

theorem sellThroughAt_bounds (sold recv : ℚ) (hs : 0 ≤ sold) (hr : 0 ≤ recv) :
    0 ≤ sellThroughAt sold recv ∧ sellThroughAt sold recv ≤ 1 := by
  unfold sellThroughAt
  split
  · next h =>
    have hpos : 0 < sold + recv := by linarith
    constructor
    · exact div_nonneg hs (le_of_lt hpos)
    · rw [div_le_one hpos]
      linarith
  · exact ⟨le_refl 0, by norm_num⟩

/-- Claim C6 (counterexample): a brand with net negative units sold (returns
exceeding sales, which the sales aggregator accumulates unchecked) gets
sell_through_pct = -5 / (-5 + 10) = -1, outside [0,1]. -/
theorem sell_through_out_of_range :
    compute_metrics invC6 [] unitsC6 [] ("a".data) =
        Option.some (metricAt invC6 [] unitsC6 [] ("a".data)) ∧
      (metricAt invC6 [] unitsC6 [] ("a".data)).sell_through_pct = -1 := by
  constructor
  · rfl
  · show sellThroughAt (-5 : ℚ) (10 : ℚ) = -1
    unfold sellThroughAt
    rw [if_pos (by norm_num : (0 : ℚ) < 10 + -5)]
    norm_num

/-- Claim C6 (amended): whenever the brand's recorded units sold and its
inventory quantity are both nonnegative, sell_through_pct lies in [0,1],
and it is 0 when both are 0; with negative recorded units (possible for
returns) the bound can fail. -/
theorem sell_through_bounds (inv : List (Str × (ℚ × ℚ)))
    (rev units : List (Str × ℚ)) (cat : List (Str × List (Str × ℚ)))
    (b : Str) (hs : 0 ≤ lookupD units b 0)
    (hr : 0 ≤ (lookupD inv b ((0 : ℚ), (0 : ℚ))).2) :
    (0 ≤ (metricAt inv rev units cat b).sell_through_pct ∧
      (metricAt inv rev units cat b).sell_through_pct ≤ 1) ∧
    (lookupD units b 0 = 0 → (lookupD inv b ((0 : ℚ), (0 : ℚ))).2 = 0 →
      (metricAt inv rev units cat b).sell_through_pct = 0) := by
  constructor
  · exact sellThroughAt_bounds _ _ hs hr
  · intro h0 h1
    show sellThroughAt (lookupD units b 0) (lookupD inv b ((0 : ℚ), (0 : ℚ))).2 = 0
    rw [h0, h1]
    norm_num [sellThroughAt]

theorem sell_through_bounds_witness :
    ((0 : ℚ) ≤ lookupD unitsW ("b".data) 0 ∧
      (0 : ℚ) ≤ (lookupD invW ("b".data) ((0 : ℚ), (0 : ℚ))).2) ∧
    (0 ≤ (metricAt invW revW unitsW [] ("b".data)).sell_through_pct ∧
      (metricAt invW revW unitsW [] ("b".data)).sell_through_pct ≤ 1) :=
  ⟨⟨by decide, by decide⟩,
   (sell_through_bounds invW revW unitsW [] ("b".data) (by decide) (by decide)).1⟩

/-- Claim C7: a brand's average unit cost is undefined exactly when its
(nonnegative, per the data model) inventory quantity is 0; when the quantity
is positive it equals total cost / total quantity. -/
theorem avg_unit_cost_undefined_iff (inv : List (Str × (ℚ × ℚ)))
    (rev units : List (Str × ℚ)) (cat : List (Str × List (Str × ℚ)))
    (b : Str) (hq : 0 ≤ (lookupD inv b ((0 : ℚ), (0 : ℚ))).2) :
    ((metricAt inv rev units cat b).avg_unit_cost = Option.none ↔
      (lookupD inv b ((0 : ℚ), (0 : ℚ))).2 = 0) ∧
    (0 < (lookupD inv b ((0 : ℚ), (0 : ℚ))).2 →
      (metricAt inv rev units cat b).avg_unit_cost =
        Option.some ((lookupD inv b ((0 : ℚ), (0 : ℚ))).1 /
          (lookupD inv b ((0 : ℚ), (0 : ℚ))).2)) := by
  have heq : (metricAt inv rev units cat b).avg_unit_cost = avgCostAt inv b := rfl
  rw [heq]
  unfold avgCostAt
  by_cases h : 0 < (lookupD inv b ((0 : ℚ), (0 : ℚ))).2
  · rw [if_pos h]
    refine ⟨⟨fun hc => Option.noConfusion hc, fun h0 => ?_⟩, fun _ => rfl⟩
    rw [h0] at h
    exact absurd h (lt_irrefl 0)
  · rw [if_neg h]
    have h0 : (lookupD inv b ((0 : ℚ), (0 : ℚ))).2 = 0 :=
      le_antisymm (not_lt.mp h) hq
    exact ⟨⟨fun _ => h0, fun _ => rfl⟩, fun hpos => absurd hpos h⟩

theorem avg_unit_cost_undefined_iff_witness :
    ((0 : ℚ) ≤ (lookupD invW ("a".data) ((0 : ℚ), (0 : ℚ))).2) ∧
    ((metricAt invW revW unitsW [] ("a".data)).avg_unit_cost = Option.none ↔
      (lookupD invW ("a".data) ((0 : ℚ), (0 : ℚ))).2 = 0) :=
  ⟨by decide,
   (avg_unit_cost_undefined_iff invW revW unitsW [] ("a".data) (by decide)).1⟩

theorem insertDesc_perm (x : BrandMetric × ℚ) :
    ∀ l : List (BrandMetric × ℚ), (insertDesc x l).Perm (x :: l)
  | [] => List.Perm.refl _
  | y :: ys => by
    unfold insertDesc
    split
    · exact List.Perm.refl _
    · exact ((insertDesc_perm x ys).cons y).trans (List.Perm.swap x y ys)

theorem sortDesc_perm : ∀ l : List (BrandMetric × ℚ), (sortDesc l).Perm l
  | [] => List.Perm.refl _
  | x :: xs => (insertDesc_perm x (sortDesc xs)).trans ((sortDesc_perm xs).cons x)

theorem sum_map_div (l : List ℚ) (T : ℚ) :
    (l.map (fun x => x / T)).sum = l.sum / T := by
  induction l with
  | nil => simp
  | cons a as ih => simp [ih, add_div]

theorem shares_sum (bd : List BrandMetric) (T : ℚ) (hT : 0 < T)
    (hsum : (bd.map BrandMetric.revenue).sum = T) :
    ((bd.map (fun b => (b, b.revenue / T))).map Prod.snd).sum = 1 := by
  rw [List.map_map]
  have h1 : (Prod.snd ∘ fun b : BrandMetric => (b, b.revenue / T)) =
      fun b : BrandMetric => b.revenue / T := rfl
  rw [h1]
  have h2 : (bd.map (fun b : BrandMetric => b.revenue / T)) =
      ((bd.map BrandMetric.revenue).map (fun x => x / T)) := by
    rw [List.map_map]
    rfl
  rw [h2, sum_map_div, hsum, div_self (ne_of_gt hT)]

/-- Claim C4: the published total revenue is the sum of the brand revenues;
each brand's injected revenue share is revenue / total when the total is
positive and 0 otherwise; consequently the shares sum to exactly 1 whenever
the total is positive, and every brand contributes share 0 when it is 0. -/
theorem revenue_share_spec (bd : List BrandMetric) (asOf notes geo cur : Str) :
    (build_json bd asOf notes geo cur).total_revenue =
        (bd.map BrandMetric.revenue).sum ∧
    (∀ p ∈ (build_json bd asOf notes geo cur).brands,
        p.2 = if 0 < (bd.map BrandMetric.revenue).sum
          then p.1.revenue / (bd.map BrandMetric.revenue).sum else 0) ∧
    (0 < (bd.map BrandMetric.revenue).sum →
        ((build_json bd asOf notes geo cur).brands.map Prod.snd).sum = 1) ∧
    ((bd.map BrandMetric.revenue).sum = 0 →
        ∀ p ∈ (build_json bd asOf notes geo cur).brands, p.2 = 0) := by
  have hbr : (build_json bd asOf notes geo cur).brands =
      sortDesc (bd.map (fun b => (b,
        if 0 < (bd.map BrandMetric.revenue).sum
        then b.revenue / (bd.map BrandMetric.revenue).sum else 0))) := rfl
  refine ⟨rfl, ?_, ?_, ?_⟩
  · intro p hp
    rw [hbr] at hp
    obtain ⟨b, hb, rfl⟩ := List.mem_map.mp ((sortDesc_perm _).mem_iff.mp hp)
    rfl
  · intro hT
    rw [hbr]
    simp only [if_pos hT]
    rw [((sortDesc_perm _).map Prod.snd).sum_eq]
    exact shares_sum bd _ hT rfl
  · intro hT0 p hp
    rw [hbr] at hp
    obtain ⟨b, hb, rfl⟩ := List.mem_map.mp ((sortDesc_perm _).mem_iff.mp hp)
    have hnlt : ¬ 0 < (bd.map BrandMetric.revenue).sum := by
      rw [hT0]
      exact lt_irrefl 0
    simp only [if_neg hnlt]

theorem revenue_share_spec_witness :
    ((0 : ℚ) < ([mW].map BrandMetric.revenue).sum) ∧
      (((build_json [mW] [] [] [] []).brands.map Prod.snd).sum = 1) :=
  ⟨by norm_num [mW],
   (revenue_share_spec [mW] [] [] [] []).2.2.1 (by norm_num [mW])⟩

/-- Claim C8: the vendor-mapping loader is total and fails soft — an absent
or unreadable source yields the empty map, so does a source in which no
vendor-like or no brand-like column is found by case-insensitive substring
match, and otherwise the result is exactly the map accumulated from the
rows. -/
theorem vendor_mapping_fails_soft :
    (load_vendor_mapping Option.none = []) ∧
    (∀ t : MapTable,
        (findCol vendorNeedle t.cols = Option.none ∨
          findCol brandNeedle t.cols = Option.none) →
        load_vendor_mapping (Option.some t) = []) ∧
    (∀ (t : MapTable) (vc bc : Str),
        findCol vendorNeedle t.cols = Option.some vc →
        findCol brandNeedle t.cols = Option.some bc →
        load_vendor_mapping (Option.some t) = buildMapping vc bc t.rows) := by
  refine ⟨rfl, ?_, ?_⟩
  · intro t h
    show (match findCol vendorNeedle t.cols, findCol brandNeedle t.cols with
      | Option.some vc, Option.some bc => buildMapping vc bc t.rows
      | _, _ => []) = []
    rcases h with h | h
    · rw [h]
    · cases hv : findCol vendorNeedle t.cols with
      | none => rfl
      | some vc => rw [h]
  · intro t vc bc hv hb
    show (match findCol vendorNeedle t.cols, findCol brandNeedle t.cols with
      | Option.some vc, Option.some bc => buildMapping vc bc t.rows
      | _, _ => []) = buildMapping vc bc t.rows
    rw [hv, hb]

theorem vendor_mapping_fails_soft_witness :
    load_vendor_mapping Option.none = [] ∧
      load_vendor_mapping (Option.some tblW) =
        buildMapping ("Vendor".data) ("Brand".data) tblW.rows :=
  ⟨vendor_mapping_fails_soft.1,
   vendor_mapping_fails_soft.2.2 tblW ("Vendor".data) ("Brand".data)
     (by decide) (by decide)⟩
